import Mathlib

/-!
Verification of the vantage6 algorithm-store review state machine and the
image-digest resolution path, as a shallow embedding of
`vantage6-algorithm-store/vantage6/algorithm/store/resource/review.py`,
`vantage6-algorithm-store/vantage6/algorithm/store/resource/algorithm.py` and
`vantage6-common/vantage6/common/docker/addons.py`.
-/

namespace VantageStore

/-- Review statuses (`ReviewStatus` enum used by the review resource). -/
inductive ReviewStatus
  | underReview
  | approved
  | rejected
  | dropped
deriving DecidableEq, Repr

/-- Algorithm statuses (`AlgorithmStatus` enum used by the review resource). -/
inductive AlgorithmStatus
  | awaitingReviewerAssignment
  | underReview
  | approved
  | rejected
  | replaced
deriving DecidableEq, Repr

/-- One reviewer's verdict on one algorithm (`db.Review` row for a fixed
algorithm). -/
structure Review where
  id : Nat
  reviewer_id : Nat
  status : ReviewStatus
  comment : Option String
deriving DecidableEq, Repr

/-- An algorithm record (`db.Algorithm` row): image reference, nullable digest,
status, nullable invalidation timestamp and the developer's user id. -/
structure Algorithm where
  id : Nat
  image : String
  digest : Option String
  status : AlgorithmStatus
  invalidated_at : Option Nat
  developer_id : Nat
deriving DecidableEq, Repr

/-- The persistent state relevant to one algorithm: the algorithm row and its
reviews. -/
structure StoreState where
  algorithm : Algorithm
  reviews : List Review
deriving DecidableEq, Repr

/-- Responses of the review endpoints, one constructor per distinct outcome of
`Reviews.post`, `Review.delete`, `ReviewApprove.post` and `ReviewReject.post`. -/
inductive Resp
  | created
  | okDeleted
  | okApproved
  | okRejected
  | errFinished
  | errNotReviewer
  | errSelfReview
  | errDuplicateReview
  | errNotFound
  | errNotAssigned
  | errNotUnderReview
  | errApprovedDelete
deriving DecidableEq, Repr

/-- Modelled from the spec: `Algorithm.is_review_finished` (the model layer is
not among the given resource files). The spec's tie-break policy: finished ≡
status ∈ \{Approved, Rejected}. -/
def is_review_finished (s : AlgorithmStatus) : Bool :=
  s == .approved || s == .rejected

/-- Modelled from the spec: `Algorithm.are_all_reviews_approved` (model layer
not among the given files): all sibling non-Dropped reviews are Approved. -/
def are_all_reviews_approved (reviews : List Review) : Bool :=
  reviews.all (fun r => r.status == .dropped || r.status == .approved)

/-- Modelled from the spec: `Algorithm.approve` (model layer not among the
given files). Per the transition table, the approve event sets the algorithm
status to Approved; it writes no other field. -/
def Algorithm.approve (a : Algorithm) : Algorithm :=
  { a with status := .approved }

/-- Endpoint `Reviews.post` from `review.py`: create a review after validation. The
reviewer's capability (`reviewer.is_reviewer()`) and the configuration flag
`dev.review_own_algorithm` come from collaborators and are passed as booleans.
The checks run in source order: algorithm review finished, reviewer capability,
self-review guard, existing review of the same (algorithm, reviewer) pair.
On success the review is created and the algorithm status is set UnderReview. -/
def reviewsPost (reviewOwnAlgorithm isReviewer : Bool) (reviewer_id newId : Nat)
    (st : StoreState) : Resp × StoreState :=
  if is_review_finished st.algorithm.status then (.errFinished, st)
  else if !isReviewer then (.errNotReviewer, st)
  else if reviewer_id == st.algorithm.developer_id && !reviewOwnAlgorithm then
    (.errSelfReview, st)
  else if st.reviews.any (fun r => r.reviewer_id == reviewer_id) then
    (.errDuplicateReview, st)
  else
    (.created,
      ⟨{ st.algorithm with status := .underReview },
        st.reviews ++ [⟨newId, reviewer_id, .underReview, none⟩]⟩)

/-- Endpoint `Review.delete` from `review.py`: if the algorithm's review is not
finished, recompute its status from the remaining reviews (no remaining
review: AwaitingReviewerAssignment; all remaining Approved: Approved;
otherwise unchanged) and delete the review; if the algorithm is Approved the
request is refused; otherwise (finished but not Approved) the review is
deleted and the algorithm is untouched. -/
def reviewDelete (rid : Nat) (st : StoreState) : Resp × StoreState :=
  match st.reviews.find? (fun r => r.id == rid) with
  | none => (.errNotFound, st)
  | some _ =>
    if !(is_review_finished st.algorithm.status) then
      let other := st.reviews.filter (fun r => !(r.id == rid))
      let alg :=
        if other.isEmpty then
          { st.algorithm with status := .awaitingReviewerAssignment }
        else if other.all (fun r => r.status == .approved) then
          { st.algorithm with status := .approved }
        else st.algorithm
      (.okDeleted, ⟨alg, other⟩)
    else if st.algorithm.status == .approved then (.errApprovedDelete, st)
    else (.okDeleted, ⟨st.algorithm, st.reviews.filter (fun r => !(r.id == rid))⟩)

/-- Endpoint `ReviewApprove.post` from `review.py`: the assigned reviewer approves an
UnderReview review; the review is saved first, then, when all non-Dropped
reviews of the algorithm are Approved, the algorithm is approved. -/
def reviewApprove (uid : Nat) (comment : Option String) (rid : Nat)
    (st : StoreState) : Resp × StoreState :=
  match st.reviews.find? (fun r => r.id == rid) with
  | none => (.errNotFound, st)
  | some review =>
    if !(review.reviewer_id == uid) then (.errNotAssigned, st)
    else if !(review.status == .underReview) then (.errNotUnderReview, st)
    else
      let reviews := st.reviews.map (fun r =>
        if r.id == rid then
          { r with
            status := .approved,
            comment := match comment with | some c => some c | none => r.comment }
        else r)
      let alg :=
        if are_all_reviews_approved reviews then st.algorithm.approve
        else st.algorithm
      (.okApproved, ⟨alg, reviews⟩)

/-- Endpoint `ReviewReject.post` from `review.py`: the assigned reviewer rejects an
UnderReview review; the algorithm is set Rejected with `invalidated_at := now`
and every other review of the algorithm is set Dropped. -/
def reviewReject (uid : Nat) (comment : Option String) (now rid : Nat)
    (st : StoreState) : Resp × StoreState :=
  match st.reviews.find? (fun r => r.id == rid) with
  | none => (.errNotFound, st)
  | some review =>
    if !(review.reviewer_id == uid) then (.errNotAssigned, st)
    else if !(review.status == .underReview) then (.errNotUnderReview, st)
    else
      let reviews := st.reviews.map (fun r =>
        if r.id == rid then
          { r with
            status := .rejected,
            comment := match comment with | some c => some c | none => r.comment }
        else { r with status := .dropped })
      (.okRejected,
        ⟨{ st.algorithm with status := .rejected, invalidated_at := some now },
          reviews⟩)

/-- A hexadecimal digit character. -/
def isHexChar (c : Char) : Bool :=
  c.isDigit || (('a' ≤ c) && (c ≤ 'f')) || (('A' ≤ c) && (c ≤ 'F'))

/-- Modelled from the spec: `is_hex_digest` (imported by `algorithm.py` from
the docker addons module but not among the given files): recognises a
64-character hexadecimal string. -/
def is_hex_digest (tag : String) : Bool :=
  tag.data.length == 64 && tag.data.all isHexChar

/-- Split a character list at the rightmost colon whose suffix holds no slash
(so a registry port colon is never taken as the tag separator). -/
def splitTagAux : List Char → Option (List Char × List Char)
  | [] => none
  | c :: cs =>
    match splitTagAux cs with
    | some (pre, tag) => some (c :: pre, tag)
    | none => if c == ':' && !(cs.contains '/') then some ([], cs) else none

/-- Modelled from the spec: `split_tag_from_image` (imported by `algorithm.py`
but not among the given files): split an image reference into the image
without the tag and the tag; an image string with no parseable tag/repository
split is an invalid reference (the Python version raises ValueError). -/
def split_tag_from_image (image : String) : Option (String × String) :=
  (splitTagAux image.data).map (fun p => (String.mk p.1, String.mk p.2))

/-- Observable effect of one run of `AlgorithmBaseResource._save_image_digest`:
the `_store_digest` writes it performs, in order, and how many times it
contacted the local docker daemon. -/
structure DigestRun where
  stored : List (String × String)
  daemonCalls : Nat
deriving DecidableEq, Repr

/-- Worker `AlgorithmBaseResource._save_image_digest` from `algorithm.py`. `daemon`
models the local docker daemon: the repo digest of the image when the daemon
has it, `none` when `images.get` raises ImageNotFound. The control flow
follows the source: on an unsplittable reference it exits with nothing stored;
when the tag is a 64-character hex string it stores the bare tag via
`_store_digest` and then still falls through to `docker.from_env()` and
`client.images.get`; when the daemon has the image, the repo digest is stored
(overwriting the previous write). -/
def save_image_digest (daemon : Option String) (image_name : String) : DigestRun :=
  match split_tag_from_image image_name with
  | none => ⟨[], 0⟩
  | some (image_wo_tag, tag) =>
    let first := if is_hex_digest tag then [(image_wo_tag, tag)] else []
    match daemon with
    | none => ⟨first, 1⟩
    | some digest => ⟨first ++ [(image_wo_tag, digest)], 1⟩

/-- Whether `p` occurs at the start of `s` (character lists). -/
def startsWith : List Char → List Char → Bool
  | [], _ => true
  | _ :: _, [] => false
  | p :: ps, c :: cs => p == c && startsWith ps cs

/-- The characters before the first double quote; `none` when no double quote
follows (the regex piece `[^"]+"` needs a closing quote). -/
def chompValue : List Char → Option (List Char)
  | [] => none
  | c :: cs => if c == '"' then some [] else (chompValue cs).map (fun v => c :: v)

/-- Try the pattern `<key>[^"]+"` anchored at the start of `s`, returning the
captured nonempty value. This is what `re.match` does at position 0 and what
`re.search` does at each candidate position. -/
def matchKeyValueAt (key s : List Char) : Option (List Char) :=
  if startsWith key s then
    match chompValue (s.drop key.length) with
    | some v => if v.isEmpty then none else some v
    | none => none
  else none

/-- Python `re.search` for the pattern `<key>[^"]+"`: try every position from
the left and return the leftmost captured value. -/
def searchKeyValue (key : List Char) : List Char → Option (List Char)
  | [] => none
  | c :: rest =>
    match matchKeyValueAt key (c :: rest) with
    | some v => some v
    | none => searchKeyValue key rest

/-- The anchored pattern of `get_manifest`: `Bearer realm="(?P<realm>[^"]+)"`
used with `re.match`. -/
def realmKey : List Char := "Bearer realm=\"".data

/-- The pattern `service="(?P<service>[^"]+)"` used with `re.search`. -/
def serviceKey : List Char := "service=\"".data

/-- The pattern `scope="(?P<scope>[^"]+)"` used with `re.search`. -/
def scopeKey : List Char := "scope=\"".data

/-- The challenge-parameter extraction of `get_manifest` in
`vantage6-common/vantage6/common/docker/addons.py`: realm via `re.match`
(anchored at the start of the WWW-Authenticate header), service and scope via
`re.search`; the token request is issued only when all three match, with
parameters (realm, service, scope). -/
def parse_challenge (header : String) : Option (String × String × String) :=
  match matchKeyValueAt realmKey header.data,
      searchKeyValue serviceKey header.data,
      searchKeyValue scopeKey header.data with
  | some r, some sv, some sc => some (String.mk r, String.mk sv, String.mk sc)
  | _, _, _ => none

/-- The reviewer assigned to review `rid` in state `st` (the approve and
reject endpoints demand that the caller equal this reviewer). -/
def reviewerOf (st : StoreState) (rid : Nat) : Nat :=
  match st.reviews.find? (fun r => r.id == rid) with
  | some r => r.reviewer_id
  | none => 0

/-- One approve event on review `rid`, performed by its assigned reviewer. -/
def approveStep (st : StoreState) (rid : Nat) : StoreState :=
  (reviewApprove (reviewerOf st rid) none rid st).2

/-- A sequence of approve events, each performed by the assigned reviewer of
the named review, applied left to right. -/
def approveAll (ids : List Nat) (st : StoreState) : StoreState :=
  ids.foldl approveStep st

/-- The state reached from `st` once exactly the reviews whose ids lie in `S`
have been approved: those reviews are Approved, the rest keep their fields,
and the algorithm is approved exactly when every review id lies in `S`. -/
def stateAfter (st : StoreState) (S : List Nat) : StoreState :=
  ⟨if st.reviews.all (fun r => S.contains r.id) then
      { st.algorithm with status := .approved }
    else st.algorithm,
    st.reviews.map (fun r =>
      if S.contains r.id then { r with status := .approved } else r)⟩

/-- Claim C5: for every review whose algorithm currently has status Approved, a
delete request on that review fails with an error response and mutates
nothing: `Review.delete` returns the approved-deletion error together with the
input state unchanged (the review still exists and every algorithm and review
field is untouched). -/
theorem review_delete_blocked_on_approved (st : StoreState) (rid : Nat)
    (r : Review) (hfind : st.reviews.find? (fun x => x.id == rid) = some r)
    (happ : st.algorithm.status = .approved) :
    reviewDelete rid st = (.errApprovedDelete, st) := by
  simp only [reviewDelete, hfind, is_review_finished, happ]
  simp

/-- Witness for C5: a concrete Approved algorithm with one review; deleting the
review is refused and the state is unchanged. -/
theorem review_delete_blocked_on_approved_witness :
    reviewDelete 1
      ⟨⟨1, "repo/algo", some "sha256:ab", .approved, none, 9⟩,
        [⟨1, 7, .approved, none⟩]⟩ =
      (.errApprovedDelete,
        ⟨⟨1, "repo/algo", some "sha256:ab", .approved, none, 9⟩,
          [⟨1, 7, .approved, none⟩]⟩) :=
  review_delete_blocked_on_approved
    ⟨⟨1, "repo/algo", some "sha256:ab", .approved, none, 9⟩,
      [⟨1, 7, .approved, none⟩]⟩
    1 ⟨1, 7, .approved, none⟩ (by decide) (by decide)

/-- Claim C10: deleting a review whose algorithm has status Rejected succeeds,
removes exactly that review, and leaves every field of the algorithm record
unchanged (status stays Rejected; invalidated_at, digest and image untouched):
only Approved algorithms are protected from review deletion. -/
theorem review_delete_on_rejected_algorithm (st : StoreState) (rid : Nat)
    (r : Review) (hfind : st.reviews.find? (fun x => x.id == rid) = some r)
    (hrej : st.algorithm.status = .rejected) :
    reviewDelete rid st =
      (.okDeleted, ⟨st.algorithm, st.reviews.filter (fun x => !(x.id == rid))⟩) := by
  simp only [reviewDelete, hfind, is_review_finished, hrej]
  simp

/-- Witness for C10: a concrete Rejected algorithm with two reviews; deleting
one review succeeds, removes it, and keeps the algorithm row identical. -/
theorem review_delete_on_rejected_algorithm_witness :
    reviewDelete 2
      ⟨⟨1, "repo/algo", none, .rejected, some 5, 9⟩,
        [⟨1, 7, .rejected, none⟩, ⟨2, 8, .dropped, none⟩]⟩ =
      (.okDeleted,
        ⟨⟨1, "repo/algo", none, .rejected, some 5, 9⟩,
          [⟨1, 7, .rejected, none⟩]⟩) :=
  review_delete_on_rejected_algorithm
    ⟨⟨1, "repo/algo", none, .rejected, some 5, 9⟩,
      [⟨1, 7, .rejected, none⟩, ⟨2, 8, .dropped, none⟩]⟩
    2 ⟨2, 8, .dropped, none⟩ (by decide) (by decide)

/-- Claim C3: when the assigned reviewer rejects an UnderReview review, the
algorithm's status becomes Rejected, `invalidated_at` is set to a non-null
timestamp, the rejected review is Rejected, and afterwards no review of the
algorithm has status UnderReview: every sibling (in particular one that had
already Approved) is forced to Dropped. -/
theorem review_reject_drops_siblings (st : StoreState) (rid uid now : Nat)
    (c : Option String) (r : Review)
    (hfind : st.reviews.find? (fun x => x.id == rid) = some r)
    (hrev : r.reviewer_id = uid) (hstat : r.status = .underReview) :
    (reviewReject uid c now rid st).1 = .okRejected ∧
    (reviewReject uid c now rid st).2.algorithm.status = .rejected ∧
    (reviewReject uid c now rid st).2.algorithm.invalidated_at = some now ∧
    (∀ x ∈ (reviewReject uid c now rid st).2.reviews,
      x.id ≠ rid → x.status = .dropped) ∧
    (∀ x ∈ (reviewReject uid c now rid st).2.reviews, x.status ≠ .underReview) := by
  refine ⟨?_, ?_, ?_, ?_, ?_⟩
  · simp [reviewReject, hfind, hrev, hstat]
  · simp [reviewReject, hfind, hrev, hstat]
  · simp [reviewReject, hfind, hrev, hstat]
  · intro x hx hne
    simp only [reviewReject, hfind, hrev, hstat] at hx
    simp only [beq_self_eq_true, Bool.not_true, Bool.false_eq_true, if_false,
      List.mem_map] at hx
    obtain ⟨y, _, hy⟩ := hx
    by_cases hid : (y.id == rid) = true
    · rw [if_pos hid] at hy
      have : x.id = rid := by
        rw [← hy]
        simpa using hid
      exact absurd this hne
    · rw [if_neg hid] at hy
      rw [← hy]
  · intro x hx
    simp only [reviewReject, hfind, hrev, hstat] at hx
    simp only [beq_self_eq_true, Bool.not_true, Bool.false_eq_true, if_false,
      List.mem_map] at hx
    obtain ⟨y, _, hy⟩ := hx
    by_cases hid : (y.id == rid) = true
    · rw [if_pos hid] at hy
      rw [← hy]
      simp
    · rw [if_neg hid] at hy
      rw [← hy]
      simp

/-- Witness for C3: two reviewers, reviewer 7 already Approved review 1,
reviewer 8 rejects review 2: the algorithm is Rejected with a timestamp and
review 1 is forced to Dropped. -/
theorem review_reject_drops_siblings_witness :
    (reviewReject 8 none 42 2
      ⟨⟨1, "repo/algo", none, .underReview, none, 9⟩,
        [⟨1, 7, .approved, none⟩, ⟨2, 8, .underReview, none⟩]⟩).1 = .okRejected ∧
    (reviewReject 8 none 42 2
      ⟨⟨1, "repo/algo", none, .underReview, none, 9⟩,
        [⟨1, 7, .approved, none⟩, ⟨2, 8, .underReview, none⟩]⟩).2.algorithm.status
      = .rejected ∧
    (reviewReject 8 none 42 2
      ⟨⟨1, "repo/algo", none, .underReview, none, 9⟩,
        [⟨1, 7, .approved, none⟩, ⟨2, 8, .underReview, none⟩]⟩).2.algorithm.invalidated_at
      = some 42 :=
  by
    have h := review_reject_drops_siblings
      ⟨⟨1, "repo/algo", none, .underReview, none, 9⟩,
        [⟨1, 7, .approved, none⟩, ⟨2, 8, .underReview, none⟩]⟩
      2 8 42 none ⟨2, 8, .underReview, none⟩ (by decide) (by decide) (by decide)
    exact ⟨h.1, h.2.1, h.2.2.1⟩

/-- Claim C8: deleting a review of an algorithm whose review is not finished
(status neither Approved nor Rejected) removes the review and sets the
algorithm status to AwaitingReviewerAssignment when it was the only review, to
Approved when at least one review remains and all remaining are Approved, and
leaves the status unchanged otherwise. -/
theorem review_delete_unfinished_status (st : StoreState) (rid : Nat)
    (r : Review) (hfind : st.reviews.find? (fun x => x.id == rid) = some r)
    (hna : st.algorithm.status ≠ .approved)
    (hnr : st.algorithm.status ≠ .rejected) :
    (reviewDelete rid st).1 = .okDeleted ∧
    (reviewDelete rid st).2.reviews = st.reviews.filter (fun x => !(x.id == rid)) ∧
    (st.reviews.filter (fun x => !(x.id == rid)) = [] →
      (reviewDelete rid st).2.algorithm.status = .awaitingReviewerAssignment) ∧
    (st.reviews.filter (fun x => !(x.id == rid)) ≠ [] →
      (∀ x ∈ st.reviews.filter (fun x => !(x.id == rid)), x.status = .approved) →
      (reviewDelete rid st).2.algorithm.status = .approved) ∧
    (st.reviews.filter (fun x => !(x.id == rid)) ≠ [] →
      (∃ x ∈ st.reviews.filter (fun x => !(x.id == rid)), x.status ≠ .approved) →
      (reviewDelete rid st).2.algorithm.status = st.algorithm.status) := by
  have hfin : is_review_finished st.algorithm.status = false := by
    simp only [is_review_finished, Bool.or_eq_false_iff, beq_eq_false_iff_ne]
    exact ⟨hna, hnr⟩
  refine ⟨?_, ?_, ?_, ?_, ?_⟩
  · simp [reviewDelete, hfind, hfin]
  · simp [reviewDelete, hfind, hfin]
  · intro hempty
    simp [reviewDelete, hfind, hfin, hempty]
  · intro hne hall
    have hisEmpty : (st.reviews.filter (fun x => !(x.id == rid))).isEmpty = false := by
      cases hlist : st.reviews.filter (fun x => !(x.id == rid)) with
      | nil => exact absurd hlist hne
      | cons a l => simp
    have hallb : (st.reviews.filter (fun x => !(x.id == rid))).all
        (fun x => x.status == .approved) = true := by
      simp only [List.all_eq_true, beq_iff_eq]
      exact hall
    simp [reviewDelete, hfind, hfin, hisEmpty, hallb]
  · intro hne hex
    have hisEmpty : (st.reviews.filter (fun x => !(x.id == rid))).isEmpty = false := by
      cases hlist : st.reviews.filter (fun x => !(x.id == rid)) with
      | nil => exact absurd hlist hne
      | cons a l => simp
    have hallb : (st.reviews.filter (fun x => !(x.id == rid))).all
        (fun x => x.status == .approved) = false := by
      obtain ⟨x, hx, hxs⟩ := hex
      apply List.all_eq_false.mpr
      exact ⟨x, hx, by simpa using hxs⟩
    simp [reviewDelete, hfind, hfin, hisEmpty, hallb]

/-- Witness for C8: deleting the sole review of an UnderReview algorithm
reverts the status to AwaitingReviewerAssignment. -/
theorem review_delete_unfinished_status_witness :
    (reviewDelete 1
      ⟨⟨1, "repo/algo", none, .underReview, none, 9⟩,
        [⟨1, 7, .underReview, none⟩]⟩).1 = .okDeleted ∧
    (reviewDelete 1
      ⟨⟨1, "repo/algo", none, .underReview, none, 9⟩,
        [⟨1, 7, .underReview, none⟩]⟩).2.algorithm.status
      = .awaitingReviewerAssignment :=
  by
    have h := review_delete_unfinished_status
      ⟨⟨1, "repo/algo", none, .underReview, none, 9⟩, [⟨1, 7, .underReview, none⟩]⟩
      1 ⟨1, 7, .underReview, none⟩ (by decide) (by decide) (by decide)
    exact ⟨h.1, h.2.2.1 (by decide)⟩

/-- Claim C9: each review-creation precondition violation (review already
finished; reviewer without reviewer capability; reviewer equal to the
algorithm's developer with the `review_own_algorithm` flag unset) is rejected
synchronously with no mutation: the error is returned together with the input
state unchanged. When all preconditions hold (including that no review of the
(algorithm, reviewer) pair exists, as the code implements the remaining
precondition), the review is created and the algorithm becomes UnderReview. -/
theorem reviews_post_preconditions (cfg isRev : Bool) (uid newId : Nat)
    (st : StoreState) :
    ((st.algorithm.status = .approved ∨ st.algorithm.status = .rejected) →
      reviewsPost cfg isRev uid newId st = (.errFinished, st)) ∧
    (¬(st.algorithm.status = .approved ∨ st.algorithm.status = .rejected) →
      isRev = false →
      reviewsPost cfg isRev uid newId st = (.errNotReviewer, st)) ∧
    (¬(st.algorithm.status = .approved ∨ st.algorithm.status = .rejected) →
      isRev = true → uid = st.algorithm.developer_id → cfg = false →
      reviewsPost cfg isRev uid newId st = (.errSelfReview, st)) ∧
    (¬(st.algorithm.status = .approved ∨ st.algorithm.status = .rejected) →
      isRev = true → (uid ≠ st.algorithm.developer_id ∨ cfg = true) →
      (∀ x ∈ st.reviews, x.reviewer_id ≠ uid) →
      reviewsPost cfg isRev uid newId st =
        (.created,
          ⟨{ st.algorithm with status := .underReview },
            st.reviews ++ [⟨newId, uid, .underReview, none⟩]⟩)) := by
  refine ⟨?_, ?_, ?_, ?_⟩
  · intro hfin
    have : is_review_finished st.algorithm.status = true := by
      simp only [is_review_finished, Bool.or_eq_true, beq_iff_eq]
      exact hfin
    simp [reviewsPost, this]
  · intro hfin hrev
    have hf : is_review_finished st.algorithm.status = false := by
      simp only [is_review_finished, Bool.or_eq_false_iff, beq_eq_false_iff_ne]
      exact ⟨fun h => hfin (Or.inl h), fun h => hfin (Or.inr h)⟩
    simp [reviewsPost, hf, hrev]
  · intro hfin hrev hdev hcfg
    have hf : is_review_finished st.algorithm.status = false := by
      simp only [is_review_finished, Bool.or_eq_false_iff, beq_eq_false_iff_ne]
      exact ⟨fun h => hfin (Or.inl h), fun h => hfin (Or.inr h)⟩
    simp [reviewsPost, hf, hrev, hdev, hcfg]
  · intro hfin hrev hdev hnodup
    have hf : is_review_finished st.algorithm.status = false := by
      simp only [is_review_finished, Bool.or_eq_false_iff, beq_eq_false_iff_ne]
      exact ⟨fun h => hfin (Or.inl h), fun h => hfin (Or.inr h)⟩
    have hself : (uid == st.algorithm.developer_id && !cfg) = false := by
      rcases hdev with h | h
      · simp [h]
      · simp [h]
    have hany : st.reviews.any (fun r => r.reviewer_id == uid) = false := by
      simp only [List.any_eq_false, beq_iff_eq]
      exact hnodup
    simp [reviewsPost, hf, hrev, hself, hany]

/-- Witness for C9: with no prior review and all preconditions met, creation
succeeds, appends the new UnderReview review and sets the algorithm
UnderReview. -/
theorem reviews_post_preconditions_witness :
    reviewsPost false true 7 1
      ⟨⟨1, "repo/algo", none, .awaitingReviewerAssignment, none, 9⟩, []⟩ =
      (.created,
        ⟨⟨1, "repo/algo", none, .underReview, none, 9⟩,
          [⟨1, 7, .underReview, none⟩]⟩) :=
  (reviews_post_preconditions false true 7 1
      ⟨⟨1, "repo/algo", none, .awaitingReviewerAssignment, none, 9⟩, []⟩).2.2.2
    (by decide) rfl (Or.inl (by decide)) (by decide)

/-- Counterexample to claim C6: an algorithm under review whose only review by
reviewer 7 is Dropped; reviewer 7 holds reviewer capability, is not the
developer, and the override flag is unset. The claim says a new
review-creation request for reviewer 7 succeeds, but `Reviews.post` filters
only on (algorithm_id, reviewer_id) and rejects it as a duplicate, mutating
nothing. -/
theorem reviews_post_dropped_blocks_counterexample :
    reviewsPost false true 7 2
      ⟨⟨1, "repo/algo", none, .underReview, none, 9⟩, [⟨1, 7, .dropped, none⟩]⟩ =
      (.errDuplicateReview,
        ⟨⟨1, "repo/algo", none, .underReview, none, 9⟩, [⟨1, 7, .dropped, none⟩]⟩) ∧
    Resp.errDuplicateReview ≠ Resp.created := by
  exact ⟨by decide, by decide⟩

/-- Claim C6 (amended): review creation is blocked by ANY existing review of
the same (algorithm, reviewer) pair regardless of its status — a Dropped prior
review also blocks, with no mutation — and succeeds exactly when no review of
the pair exists at all (other preconditions holding). -/
theorem reviews_post_any_existing_review_blocks (cfg isRev : Bool)
    (uid newId : Nat) (st : StoreState)
    (hfin : ¬(st.algorithm.status = .approved ∨ st.algorithm.status = .rejected))
    (hrev : isRev = true)
    (hdev : uid ≠ st.algorithm.developer_id ∨ cfg = true) :
    ((∃ x ∈ st.reviews, x.reviewer_id = uid) →
      reviewsPost cfg isRev uid newId st = (.errDuplicateReview, st)) ∧
    ((∀ x ∈ st.reviews, x.reviewer_id ≠ uid) →
      reviewsPost cfg isRev uid newId st =
        (.created,
          ⟨{ st.algorithm with status := .underReview },
            st.reviews ++ [⟨newId, uid, .underReview, none⟩]⟩)) := by
  have hf : is_review_finished st.algorithm.status = false := by
    simp only [is_review_finished, Bool.or_eq_false_iff, beq_eq_false_iff_ne]
    exact ⟨fun h => hfin (Or.inl h), fun h => hfin (Or.inr h)⟩
  have hself : (uid == st.algorithm.developer_id && !cfg) = false := by
    rcases hdev with h | h
    · simp [h]
    · simp [h]
  refine ⟨?_, ?_⟩
  · intro hex
    have hany : st.reviews.any (fun r => r.reviewer_id == uid) = true := by
      obtain ⟨x, hx, hxu⟩ := hex
      simp only [List.any_eq_true, beq_iff_eq]
      exact ⟨x, hx, hxu⟩
    simp [reviewsPost, hf, hrev, hself, hany]
  · intro hnone
    have hany : st.reviews.any (fun r => r.reviewer_id == uid) = false := by
      simp only [List.any_eq_false, beq_iff_eq]
      exact hnone
    simp [reviewsPost, hf, hrev, hself, hany]

/-- Witness for C6 (amended): reviewer 7's only prior review (a Dropped one)
blocks a new review-creation request, leaving state unchanged. -/
theorem reviews_post_any_existing_review_blocks_witness :
    reviewsPost false true 7 2
      ⟨⟨1, "repo/algo", none, .underReview, none, 9⟩, [⟨1, 7, .dropped, none⟩]⟩ =
      (.errDuplicateReview,
        ⟨⟨1, "repo/algo", none, .underReview, none, 9⟩, [⟨1, 7, .dropped, none⟩]⟩) :=
  (reviews_post_any_existing_review_blocks false true 7 2
      ⟨⟨1, "repo/algo", none, .underReview, none, 9⟩, [⟨1, 7, .dropped, none⟩]⟩
      (by decide) rfl (Or.inl (by decide))).1
    ⟨⟨1, 7, .dropped, none⟩, by decide, rfl⟩

/-- Counterexample to claim C2: the invariant `status == Approved ⇒ digest ≠
null` fails on a reachable state. Starting from a freshly registered algorithm
whose digest worker failed (digest null, status AwaitingReviewerAssignment),
assigning reviewer 7 and then approving the only review puts the algorithm in
status Approved while its digest is still null: `ReviewApprove.post` performs
no digest check. -/
theorem approved_with_null_digest_counterexample :
    ((reviewApprove 7 none 1
      ((reviewsPost false true 7 1
        ⟨⟨1, "repo/algo:latest", none, .awaitingReviewerAssignment, none, 9⟩,
          []⟩).2)).2).algorithm.status = .approved ∧
    ((reviewApprove 7 none 1
      ((reviewsPost false true 7 1
        ⟨⟨1, "repo/algo:latest", none, .awaitingReviewerAssignment, none, 9⟩,
          []⟩).2)).2).algorithm.digest = none := by
  exact ⟨by decide, by decide⟩

/-- Claim C2 (amended): an Approved status does not guarantee a non-null
digest. The approve path neither reads nor writes the digest field — it
returns the algorithm with the digest exactly as it was — so approving the
final review while the asynchronous digest worker has failed (digest null)
yields an Approved algorithm whose digest is null. -/
theorem review_approve_preserves_digest (uid : Nat) (c : Option String)
    (rid : Nat) (st : StoreState) :
    ((reviewApprove uid c rid st).2).algorithm.digest = st.algorithm.digest := by
  simp only [reviewApprove]
  cases hfind : st.reviews.find? (fun r => r.id == rid) with
  | none => rfl
  | some review =>
    dsimp only
    split
    · rfl
    · split
      · rfl
      · dsimp only
        split
        · rfl
        · rfl

/-- Claim C1 is a code bug: for an image reference whose tag is a 64-character
hex string, `_save_image_digest` stores the bare tag (not `sha256:<tag>`), and
the short-circuit does not terminate resolution: it still contacts the docker
daemon (one call even when the image is absent), and when the daemon has the
image the pinned-tag write is overwritten by the daemon digest. -/
theorem save_image_digest_hex_tag_not_short_circuited :
    (save_image_digest none ("harbor2.vantage6.ai/demo/average:" ++
      "0123456789abcdef0123456789abcdef0123456789abcdef0123456789abcdef")).daemonCalls
      = 1 ∧
    (save_image_digest none ("harbor2.vantage6.ai/demo/average:" ++
      "0123456789abcdef0123456789abcdef0123456789abcdef0123456789abcdef")).stored
      = [("harbor2.vantage6.ai/demo/average",
          "0123456789abcdef0123456789abcdef0123456789abcdef0123456789abcdef")] ∧
    (save_image_digest (some "sha256:feed01") ("harbor2.vantage6.ai/demo/average:" ++
      "0123456789abcdef0123456789abcdef0123456789abcdef0123456789abcdef")).stored
      = [("harbor2.vantage6.ai/demo/average",
          "0123456789abcdef0123456789abcdef0123456789abcdef0123456789abcdef"),
         ("harbor2.vantage6.ai/demo/average", "sha256:feed01")] ∧
    ("0123456789abcdef0123456789abcdef0123456789abcdef0123456789abcdef" : String)
      ≠ "sha256:" ++
        "0123456789abcdef0123456789abcdef0123456789abcdef0123456789abcdef" := by
  refine ⟨by decide, by decide, by decide, by decide⟩

/-- Counterexample to claim C4: extraction is not order-independent. The same
three parameters parse when realm comes first but fail to parse when service
comes first, because the realm pattern is applied with `re.match`, anchored at
the start of the header. -/
theorem parse_challenge_order_dependent_counterexample :
    parse_challenge ("Bearer realm=\"https://auth.docker.io/token\"," ++
        "service=\"registry.docker.io\",scope=\"repository:demo/average:pull\"")
      = some ("https://auth.docker.io/token", "registry.docker.io",
          "repository:demo/average:pull") ∧
    parse_challenge ("Bearer service=\"registry.docker.io\"," ++
        "realm=\"https://auth.docker.io/token\",scope=\"repository:demo/average:pull\"")
      = none := by
  refine ⟨by decide, by decide⟩

/-- Claim C4 (amended): extraction succeeds only for challenges whose first
parameter is realm (every successfully parsed header starts with
`Bearer realm="`), and given a leading realm the remaining service and scope
parameters are order-independent: both orders parse to the same
(realm, service, scope) triple and hence the same token request. -/
theorem parse_challenge_realm_anchored (h : String) :
    ((parse_challenge h).isSome = true → startsWith realmKey h.data = true) ∧
    (parse_challenge ("Bearer realm=\"https://auth.docker.io/token\"," ++
        "service=\"registry.docker.io\",scope=\"repository:demo/average:pull\"")
      = some ("https://auth.docker.io/token", "registry.docker.io",
          "repository:demo/average:pull") ∧
     parse_challenge ("Bearer realm=\"https://auth.docker.io/token\"," ++
        "scope=\"repository:demo/average:pull\",service=\"registry.docker.io\"")
      = some ("https://auth.docker.io/token", "registry.docker.io",
          "repository:demo/average:pull")) := by
  refine ⟨?_, by decide, by decide⟩
  intro hsome
  simp only [parse_challenge] at hsome
  cases hm : matchKeyValueAt realmKey h.data with
  | none =>
    rw [hm] at hsome
    cases searchKeyValue serviceKey h.data <;>
      cases searchKeyValue scopeKey h.data <;> simp at hsome
  | some v =>
    by_contra hns
    have : matchKeyValueAt realmKey h.data = none := by
      simp only [matchKeyValueAt]
      rw [if_neg (by simpa using hns)]
    rw [this] at hm
    exact Option.noConfusion hm

/-- Witness for C4 (amended): the realm-first challenge both parses and starts
with the anchored realm pattern. -/
theorem parse_challenge_realm_anchored_witness :
    startsWith realmKey ("Bearer realm=\"https://auth.docker.io/token\"," ++
        "service=\"registry.docker.io\",scope=\"repository:demo/average:pull\"").data
      = true :=
  (parse_challenge_realm_anchored
      ("Bearer realm=\"https://auth.docker.io/token\"," ++
        "service=\"registry.docker.io\",scope=\"repository:demo/average:pull\"")).1
    (by decide)

/-- Helper: membership and `contains` agree on id lists. -/
theorem contains_eq_true_iff {l : List Nat} {a : Nat} :
    l.contains a = true ↔ a ∈ l := by
  simp only [List.contains]
  exact List.elem_iff

/-- Helper: the review updater of `stateAfter` keeps the review id. -/
theorem stateAfter_update_id (S : List Nat) (r : Review) :
    (if S.contains r.id then { r with status := ReviewStatus.approved } else r).id
      = r.id := by
  split <;> rfl

/-- Helper: `List.all` respects pointwise equality on members. -/
theorem all_congr_of_mem {α : Type} {l : List α} {p q : α → Bool}
    (h : ∀ x ∈ l, p x = q x) : l.all p = l.all q := by
  rw [Bool.eq_iff_iff, List.all_eq_true, List.all_eq_true]
  constructor
  · intro hp x hx
    rw [← h x hx]
    exact hp x hx
  · intro hq x hx
    rw [h x hx]
    exact hq x hx

/-- Helper: with no review approved yet, `stateAfter` is the starting state. -/
theorem stateAfter_nil (st : StoreState) (hne : st.reviews ≠ []) :
    stateAfter st [] = st := by
  obtain ⟨alg, revs⟩ := st
  unfold stateAfter
  have h1 : revs.all (fun r => ([] : List Nat).contains r.id) = false := by
    cases revs with
    | nil => exact absurd rfl hne
    | cons a t => simp [List.contains]
  rw [h1]
  simp [List.contains]

/-- Helper: approving the not-yet-approved review `rid` from the state where
exactly the reviews in `S` are approved reaches the state where exactly the
reviews in `rid :: S` are approved. -/
theorem approveStep_stateAfter (st : StoreState)
    (hall : ∀ r ∈ st.reviews, r.status = ReviewStatus.underReview)
    (S : List Nat) (rid : Nat) (r0 : Review)
    (hr0 : st.reviews.find? (fun r => r.id == rid) = some r0)
    (hS : S.contains rid = false) :
    approveStep (stateAfter st S) rid = stateAfter st (rid :: S) := by
  have hr0id : r0.id = rid := by
    have := List.find?_some hr0
    simpa using this
  have hr0mem : r0 ∈ st.reviews := List.mem_of_find?_eq_some hr0
  have hstat0 : r0.status = ReviewStatus.underReview := hall r0 hr0mem
  have hfind2 : (stateAfter st S).reviews.find? (fun r => r.id == rid) = some r0 := by
    show (st.reviews.map (fun r =>
        if S.contains r.id then { r with status := ReviewStatus.approved } else r)).find?
        (fun r => r.id == rid) = some r0
    rw [List.find?_map]
    have hcomp : ((fun r : Review => r.id == rid) ∘ (fun r =>
        if S.contains r.id then { r with status := ReviewStatus.approved } else r)) =
        (fun r : Review => r.id == rid) := by
      funext r
      simp only [Function.comp_apply]
      rw [stateAfter_update_id]
    rw [hcomp, hr0]
    simp only [Option.map_some']
    rw [hr0id, hS]
    simp
  have huid : reviewerOf (stateAfter st S) rid = r0.reviewer_id := by
    unfold reviewerOf
    rw [hfind2]
  have hrev2 : ((stateAfter st S).reviews.map (fun r =>
      if r.id == rid then
        { r with status := ReviewStatus.approved, comment := r.comment }
      else r)) =
      st.reviews.map (fun r =>
        if (rid :: S).contains r.id then { r with status := ReviewStatus.approved }
        else r) := by
    show (st.reviews.map (fun r =>
        if S.contains r.id then { r with status := ReviewStatus.approved } else r)).map
        (fun r =>
          if r.id == rid then
            { r with status := ReviewStatus.approved, comment := r.comment }
          else r) = _
    rw [List.map_map]
    have hpt : ((fun r : Review =>
        if r.id == rid then
          { r with status := ReviewStatus.approved, comment := r.comment }
        else r) ∘ (fun r =>
          if S.contains r.id then { r with status := ReviewStatus.approved } else r)) =
        (fun r : Review =>
          if (rid :: S).contains r.id then { r with status := ReviewStatus.approved }
          else r) := by
      funext r
      simp only [Function.comp_apply, List.contains_cons]
      by_cases hid : r.id = rid
      · by_cases hcm : rid ∈ S
        · simp [hid, hcm]
        · simp [hid, hcm]
      · by_cases hcm : r.id ∈ S
        · simp [hid, hcm]
        · simp [hid, hcm]
    rw [hpt]
  have hcond : are_all_reviews_approved (st.reviews.map (fun r =>
      if (rid :: S).contains r.id then { r with status := ReviewStatus.approved }
      else r)) =
      st.reviews.all (fun r => (rid :: S).contains r.id) := by
    unfold are_all_reviews_approved
    rw [List.all_map]
    apply all_congr_of_mem
    intro x hx
    simp only [Function.comp_apply]
    by_cases hcm : x.id ∈ rid :: S
    · simp [hcm]
    · simp [hcm, hall x hx]
  have halgS : (stateAfter st S).algorithm = st.algorithm := by
    unfold stateAfter
    have hfalse : st.reviews.all (fun r => S.contains r.id) = false := by
      apply List.all_eq_false.mpr
      refine ⟨r0, hr0mem, ?_⟩
      rw [hr0id, hS]
      simp
    rw [hfalse]
    simp
  show (reviewApprove (reviewerOf (stateAfter st S) rid) none rid (stateAfter st S)).2
      = stateAfter st (rid :: S)
  rw [huid]
  simp only [reviewApprove, hfind2, beq_self_eq_true, Bool.not_true,
    Bool.false_eq_true, if_false, hstat0]
  rw [hrev2, halgS, hcond]
  rfl

/-- Helper: folding approve events over distinct not-yet-approved review ids
accumulates them into the approved set. -/
theorem approveAll_stateAfter (st : StoreState)
    (hall : ∀ r ∈ st.reviews, r.status = ReviewStatus.underReview) :
    ∀ (p S : List Nat), p.Nodup →
      (∀ x ∈ p, x ∈ st.reviews.map (fun r => r.id)) →
      (∀ x ∈ p, S.contains x = false) →
      approveAll p (stateAfter st S) = stateAfter st (p.reverse ++ S) := by
  intro p
  induction p with
  | nil =>
    intro S _ _ _
    rfl
  | cons a t ih =>
    intro S hnd hmem hS
    have hamem : a ∈ st.reviews.map (fun r => r.id) := hmem a (by simp)
    obtain ⟨ra, hramem, hraid⟩ := List.mem_map.mp hamem
    have hsome : (st.reviews.find? (fun r => r.id == a)).isSome := by
      rw [List.find?_isSome]
      exact ⟨ra, hramem, by simp [hraid]⟩
    obtain ⟨r0, hr0⟩ := Option.isSome_iff_exists.mp hsome
    have hstep := approveStep_stateAfter st hall S a r0 hr0 (hS a (by simp))
    show approveAll t (approveStep (stateAfter st S) a) = _
    rw [hstep]
    rw [ih (a :: S) (List.Nodup.of_cons hnd) (fun x hx => hmem x (by simp [hx]))
      (fun x hx => by
        have hxa : x ≠ a := by
          intro heq
          subst heq
          exact (List.nodup_cons.mp hnd).1 hx
        have hxs : x ∉ S := by
          intro hm
          have hc := contains_eq_true_iff.mpr hm
          rw [hS x (by simp [hx])] at hc
          exact Bool.false_ne_true hc
        rw [List.contains_cons]
        simp [hxa, hxs])]
    rw [List.reverse_cons, List.append_assoc]
    rfl

/-- Claim C7: for an algorithm whose reviews are exactly N assigned UnderReview
reviews (distinct ids, algorithm UnderReview), applying the N approve events
(each by its assigned reviewer) in any permutation of the review ids yields the
same final state: the algorithm ends Approved, and after every non-final
approval the status is unchanged, still UnderReview. -/
theorem review_approve_order_independent (st : StoreState) (l : List Nat)
    (hperm : l.Perm (st.reviews.map (fun r => r.id)))
    (hnodup : (st.reviews.map (fun r => r.id)).Nodup)
    (hne : st.reviews ≠ [])
    (hall : ∀ r ∈ st.reviews, r.status = ReviewStatus.underReview)
    (halg : st.algorithm.status = AlgorithmStatus.underReview) :
    (approveAll l st).algorithm.status = AlgorithmStatus.approved ∧
    (∀ p q, l = p ++ q → q ≠ [] →
      (approveAll p st).algorithm.status = AlgorithmStatus.underReview) := by
  have hlnd : l.Nodup := hperm.nodup_iff.mpr hnodup
  constructor
  · have h0 : approveAll l st = approveAll l (stateAfter st []) := by
      rw [stateAfter_nil st hne]
    rw [h0, approveAll_stateAfter st hall l [] hlnd
      (fun x hx => hperm.mem_iff.mp hx) (fun x _ => rfl)]
    have hcov : st.reviews.all (fun r => (l.reverse ++ []).contains r.id) = true := by
      rw [List.all_eq_true]
      intro r hr
      apply contains_eq_true_iff.mpr
      have : r.id ∈ l := hperm.mem_iff.mpr (List.mem_map_of_mem _ hr)
      simp [this]
    unfold stateAfter
    rw [hcov]
    rfl
  · intro p q hl hq
    obtain ⟨b, q', rfl⟩ : ∃ b q', q = b :: q' := by
      cases q with
      | nil => exact absurd rfl hq
      | cons b q' => exact ⟨b, q', rfl⟩
    have hpsub : p.Sublist l := hl ▸ List.sublist_append_left p (b :: q')
    have hpnd : p.Nodup := hpsub.nodup hlnd
    have hpmem : ∀ x ∈ p, x ∈ st.reviews.map (fun r => r.id) := by
      intro x hx
      exact hperm.mem_iff.mp (hl ▸ List.mem_append_left _ hx)
    have h0 : approveAll p st = approveAll p (stateAfter st []) := by
      rw [stateAfter_nil st hne]
    rw [h0, approveAll_stateAfter st hall p [] hpnd hpmem (fun x _ => rfl)]
    have hbl : b ∈ l := hl ▸ List.mem_append_right p (by simp)
    obtain ⟨rb, hrbmem, hrbid⟩ :=
      List.mem_map.mp (hperm.mem_iff.mp hbl)
    have hbp : b ∉ p := by
      intro hmem
      have hdisj := List.disjoint_of_nodup_append (hl ▸ hlnd)
      exact hdisj hmem (by simp)
    have hncov : st.reviews.all (fun r => (p.reverse ++ []).contains r.id) = false := by
      apply List.all_eq_false.mpr
      refine ⟨rb, hrbmem, ?_⟩
      intro hcontains
      have : rb.id ∈ p.reverse ++ [] := contains_eq_true_iff.mp hcontains
      rw [hrbid] at this
      exact hbp (by simpa using this)
    unfold stateAfter
    rw [hncov]
    simpa using halg

/-- Witness for C7: two UnderReview reviews with ids 1 and 2; approving in the
order [2, 1] ends with the algorithm Approved, and after the non-final prefix
[2] the algorithm is still UnderReview. -/
theorem review_approve_order_independent_witness :
    (approveAll [2, 1]
      ⟨⟨1, "repo/algo", none, .underReview, none, 9⟩,
        [⟨1, 7, .underReview, none⟩, ⟨2, 8, .underReview, none⟩]⟩).algorithm.status
      = AlgorithmStatus.approved ∧
    (approveAll [2]
      ⟨⟨1, "repo/algo", none, .underReview, none, 9⟩,
        [⟨1, 7, .underReview, none⟩, ⟨2, 8, .underReview, none⟩]⟩).algorithm.status
      = AlgorithmStatus.underReview :=
  by
    have h := review_approve_order_independent
      ⟨⟨1, "repo/algo", none, .underReview, none, 9⟩,
        [⟨1, 7, .underReview, none⟩, ⟨2, 8, .underReview, none⟩]⟩
      [2, 1] (by decide) (by decide) (by decide) (by decide) (by decide)
    exact ⟨h.1, h.2 [2] [1] rfl (by decide)⟩

end VantageStore
